import Mathlib

/-!
Verification of the SummerCash core against its specification.

The Rust sources are shallowly embedded: `HashMap` values become association
lists (`Mp`), `BigUint` becomes `Nat`, `u64` becomes `Nat`, and byte vectors
become `List Nat`.  Addresses appear in the source only through their
canonical string form (`Address::to_str`), so the model uses `String`
directly.  Hash values (32-byte Blake3 digests) are modelled as `List Nat`
byte strings; content hashing is modelled by a fingerprint encoding of the
hashed data (no claim below depends on collision behaviour of the digest).
-/

namespace SummerCash

/-- Canonical string form of an address; the source compares addresses by
bytes and keys its balance maps by `Address::to_str`, which the model takes
as the address itself. -/
abbrev Address := String

/-- A hash value: a byte string (model of the 32-byte Blake3 digest). -/
abbrev Hash := List Nat

/-- Lookup in an association map (model of `HashMap::get`). -/
def mfind {α β : Type} [DecidableEq α] : List (α × β) → α → Option β
  | [], _ => none
  | (k, v) :: rest, a => if k = a then some v else mfind rest a

/-- Insert-or-replace (model of `HashMap::insert`). -/
def minsert {α β : Type} [DecidableEq α] : List (α × β) → α → β → List (α × β)
  | [], a, b => [(a, b)]
  | (k, v) :: rest, a, b =>
    if k = a then (a, b) :: rest else (k, v) :: minsert rest a b

/-- Lookup with a default (model of `map.get(k).unwrap_or(&d)`). -/
def mgetD {α β : Type} [DecidableEq α] (m : List (α × β)) (a : α) (d : β) : β :=
  (mfind m a).getD d

/-- Key-presence test (model of `HashMap::contains_key`). -/
def mcontains {α β : Type} [DecidableEq α] (m : List (α × β)) (a : α) : Bool :=
  (mfind m a).isSome

/-- In-place update of the value under an existing key (model of mutating
through `HashMap::get_mut`); a map without the key is unchanged. -/
def madjust {α β : Type} [DecidableEq α] : List (α × β) → α → (β → β) → List (α × β)
  | [], _, _ => []
  | (k, v) :: rest, a, f =>
    if k = a then (k, f v) :: madjust rest a f else (k, v) :: madjust rest a f

/-- Association-list model of the `HashMap<String, _>` balance and nonce
maps.  The claims only observe maps through lookup, so the list order is
irrelevant to every statement below. -/
abbrev Mp (β : Type) := List (Address × β)

/-- The nonce/balance content of a state entry (`state::EntryData`).
Modelled from the spec: `src/core/types/state.rs` is not among the provided
sources; §3 defines a StateEntry as nonce and balance maps plus the content
hash of their canonical serialization. -/
structure EntryData where
  nonces : Mp Nat
  balances : Mp Nat
deriving DecidableEq, Repr

/-- Fingerprint of a string, used inside content-hash encodings. -/
def encStr (s : String) : List Nat :=
  s.length :: (s.toList.map Char.toNat)

/-- Fingerprint of one map binding. -/
def encPair (p : Address × Nat) : List Nat :=
  encStr p.1 ++ [p.2]

/-- Fingerprint of an association map, length-prefixed. -/
def encMap (m : Mp Nat) : List Nat :=
  m.length :: m.flatMap encPair

/-- Content hash of a state entry.
Modelled from the spec: the entry hash is the digest of the canonical
serialization of `(nonces, balances)`; the digest is modelled by a tagged
fingerprint of the data. -/
def entryHashOf (nonces balances : Mp Nat) : Hash :=
  0 :: (encMap nonces ++ encMap balances)

/-- A state entry (`state::Entry`).
Modelled from the spec: immutable snapshot of nonces and balances together
with its content hash. -/
structure Entry where
  data : EntryData
  hash : Hash
deriving DecidableEq, Repr

/-- Constructor of a state entry from its maps (`state::Entry::new`).
Modelled from the spec: the hash is derived from the content. -/
def Entry.new (nonces balances : Mp Nat) : Entry :=
  { data := { nonces := nonces, balances := balances }
    hash := entryHashOf nonces balances }

/-- A receipt (`receipt::Receipt`): a produced state hash plus reserved logs.
Modelled from the spec: `receipt.rs` is not among the provided sources. -/
structure Receipt where
  state_hash : Hash
  logs : List (List Nat)
deriving DecidableEq, Repr

/-- Parallel sequences linking parent transactions to their receipts
(`receipt::ReceiptMap`).  Modelled from the spec. -/
structure ReceiptMap where
  associated_transactions : List Hash
  receipts : List Receipt
deriving DecidableEq, Repr

/-- The signed preimage of a transaction (`TransactionData`,
`src/core/types/transaction.rs`).  `chrono` timestamps are modelled as
natural numbers. -/
structure TransactionData where
  nonce : Nat
  sender : Address
  recipient : Address
  value : Nat
  payload : List Nat
  parents : List Hash
  parent_receipts : Option ReceiptMap
  parent_state_hash : Option Hash
  timestamp : Nat
deriving DecidableEq, Repr

/-- An ed25519 signature value: in the symbolic model a signature records
the signing public key and the signed message hash.
Modelled from the spec: `signature.rs` is not among the provided sources. -/
structure SigBytes where
  signer_public : Nat
  message : Hash
deriving DecidableEq, Repr

/-- A detached signature (`signature::Signature`): serialized public key
bytes plus serialized signature bytes.  Public keys are modelled as `Nat`
and their `bincode` serialization as the identity.
Modelled from the spec. -/
structure Signature where
  public_key_bytes : Nat
  signature_bytes : SigBytes
deriving DecidableEq, Repr

/-- A transaction (`Transaction`, `src/core/types/transaction.rs`). -/
structure Transaction where
  transaction_data : TransactionData
  hash : Hash
  signature : Option Signature
  deployed_contract_address : Option Address
  contract_creation : Bool
  genesis : Bool
deriving DecidableEq, Repr

/-- Fingerprint of a hash value inside an encoding. -/
def encHash (h : Hash) : List Nat :=
  h.length :: h

/-- Digest of transaction data, modelling
`blake3::hash_slice(&bincode::serialize(&transaction_data))`.  The digest is
a tagged fingerprint of the fields; no claim depends on its value. -/
def txHashOf (d : TransactionData) : Hash :=
  1 :: ([d.nonce] ++ encStr d.sender ++ encStr d.recipient ++ [d.value]
    ++ d.payload ++ (d.parents.length :: d.parents.flatMap encHash)
    ++ [d.timestamp])

/-- Constructor `Transaction::new`: builds the data, hashes it, and leaves
the signature, contract fields and genesis flag at their defaults (in
particular `genesis
 = false`).  The wall-clock timestamp is passed explicitly. -/
def Transaction.new (nonce : Nat) (sender recipient : Address) (value_finks : Nat)
    (payload : List Nat) (parents : List Hash) (timestamp : Nat) : Transaction :=
  let transaction_data : TransactionData :=
    { nonce := nonce
      sender := sender
      recipient := recipient
      value := value_finks
      payload := payload
      parents := parents
      parent_receipts := none
      parent_state_hash := none
      timestamp := timestamp }
  { transaction_data := transaction_data
    hash := txHashOf transaction_data
    signature := none
    deployed_contract_address := none
    contract_creation := false
    genesis := false }

/-- Execution of a transaction against an optional previous state entry
(`Transaction::execute`).  The `some` branch with empty balances re-executes
against `none`; otherwise the sender balance is decremented and the
recipient balance incremented sequentially (the recipient read observes the
updated map), and the sender nonce is set.  `BigUint` subtraction in the
source panics on underflow; on the guarded domain (sender balance at least
the value) it agrees with truncated `Nat` subtraction used here. -/
def Transaction.execute (tx : Transaction) : Option Entry → Entry
  | some entry =>
    if entry.data.balances.isEmpty then
      tx.execute none
    else
      let balances0 := entry.data.balances
      let nonces0 := entry.data.nonces
      let balances1 := minsert balances0 tx.transaction_data.sender
        (mgetD balances0 tx.transaction_data.sender 0 - tx.transaction_data.value)
      let balances2 := minsert balances1 tx.transaction_data.recipient
        (mgetD balances1 tx.transaction_data.recipient 0 + tx.transaction_data.value)
      let nonces1 := minsert nonces0 tx.transaction_data.sender tx.transaction_data.nonce
      Entry.new nonces1 balances2
  | none =>
    let balances := minsert ([] : Mp Nat) tx.transaction_data.recipient
      tx.transaction_data.value
    let nonces := minsert ([] : Mp Nat) tx.transaction_data.sender
      tx.transaction_data.nonce
    Entry.new nonces balances
termination_by o => o
decreasing_by
  simp_wf
  cases entry
  simp_arith

/-- Concrete transaction used to witness the execution theorem. -/
def txW : Transaction :=
  Transaction.new 1 "alice" "bob" 3 [] [[0]] 0

/-- Concrete previous state entry used to witness the execution theorem. -/
def entryW : Entry :=
  Entry.new [("alice", 0)] [("alice", 5)]

/-- A DAG vertex (`graph::Node`, `src/core/types/graph.rs`). -/
structure Node where
  transaction : Transaction
  state_entry : Option Entry
  hash : Hash
deriving DecidableEq, Repr

/-- Constructor `Node::new`: the node hash is the transaction hash. -/
def Node.new (transaction : Transaction) (state_entry : Option Entry) : Node :=
  { transaction := transaction
    state_entry := state_entry
    hash := transaction.hash }

/-- On-disk content of the sled database backing a graph: nodes keyed by the
ASCII decimal string of their index, kept sorted by key bytes (sled is an
ordered store).  `bincode` node round-trips are the identity, so values are
stored as nodes directly. -/
abbrev Db := List (String × Node)

/-- The DAG ledger (`graph::Graph`, `src/core/types/graph.rs`). -/
structure Graph where
  nodes : List Node
  hash_routes : List (Hash × Nat)
  node_children : List (Hash × List Hash)
  db : Option Db
deriving DecidableEq, Repr

/-- Constructor `Graph::new`: executes the root transaction against `none`,
installs the resulting node at index 0 and routes its hash to 0.  The
transaction is stored as given; in particular its `genesis` flag is not
modified, and `node_children` starts empty. -/
def Graph.new (root_transaction : Transaction) : Graph :=
  let root_transaction_hash := root_transaction.hash
  let root_transaction_state_entry := root_transaction.execute none
  { nodes := [{ transaction := root_transaction
                state_entry := some root_transaction_state_entry
                hash := root_transaction_hash }]
    hash_routes := [(root_transaction_hash, 0)]
    node_children := []
    db := none }

/-- The parent loop of `Graph::push`: for each parent in order, if the
parent has no `node_children` entry yet, a singleton entry is created and
the loop breaks (remaining parents are not visited); otherwise the child
hash is appended to the existing entry. -/
def pushChildren (nc : List (Hash × List Hash)) (h : Hash) : List Hash → List (Hash × List Hash)
  | [] => nc
  | parent :: rest =>
    if mcontains nc parent = false then
      minsert nc parent [h]
    else
      pushChildren (madjust nc parent (fun l => l ++ [h])) h rest

/-- Method `Graph::push`: unconditionally appends a node, routes the
transaction hash to the new index, and runs the parent loop; returns the
new graph together with the returned index. -/
def Graph.push (g : Graph) (transaction : Transaction) (state_entry : Option Entry) :
    Graph × Nat :=
  let transaction_hash := transaction.hash
  let transaction_parents := transaction.transaction_data.parents
  let nodes := g.nodes ++ [Node.new transaction state_entry]
  let hash_routes := minsert g.hash_routes transaction_hash (nodes.length - 1)
  let node_children := pushChildren g.node_children transaction_hash transaction_parents
  ({ nodes := nodes
     hash_routes := hash_routes
     node_children := node_children
     db := g.db },
    nodes.length - 1)

/-- Method `Graph::update`: replaces the node at the given index; the route
table is not rewritten. -/
def Graph.update (g : Graph) (index : Nat) (transaction : Transaction)
    (state_entry : Option Entry) : Graph :=
  { g with nodes := g.nodes.set index (Node.new transaction state_entry) }

/-- Concrete root transaction parented at the zero hash. -/
def txRootC : Transaction :=
  Transaction.new 0 "a" "b" 0 [] [[0]] 0

/-- Concrete transaction with two distinct parents, neither of which has a
`node_children` entry in a freshly built graph. -/
def txTwoParentsC : Transaction :=
  Transaction.new 1 "a" "b" 0 [] [[7], [8]] 0

/-- The route-table invariant of spec §3: the hash of the node at each
in-bounds index routes back to that index. -/
def RoutesConsistent (g : Graph) : Prop :=
  ∀ i n, g.nodes.get? i = some n → mfind g.hash_routes n.hash = some i

/-- Concrete replacement transaction whose hash differs from `txRootC`. -/
def txUpdC : Transaction :=
  Transaction.new 5 "c" "d" 1 [] [[0]] 0

/-- The genesis-placement invariant of spec §3: a node's transaction has
`genesis = true` exactly when the node sits at index 0. -/
def GenesisAtZeroOnly (g : Graph) : Prop :=
  ∀ i n, g.nodes.get? i = some n → (n.transaction.genesis = true ↔ i = 0)

/-- Concrete root transaction explicitly flagged as the network genesis. -/
def txGenC : Transaction :=
  { Transaction.new 0 "a" "b" 0 [] [[0]] 0 with genesis := true }

/-- Lexicographic byte order on key characters (the order in which sled
iterates keys). -/
def charListLt : List Char → List Char → Bool
  | [], [] => false
  | [], _ :: _ => true
  | _ :: _, [] => false
  | a :: as, b :: bs =>
    if a.toNat < b.toNat then true
    else if b.toNat < a.toNat then false
    else charListLt as bs

/-- Lexicographic byte order on keys. -/
def strLt (a b : String) : Bool :=
  charListLt a.toList b.toList

/-- Store a value under a key, keeping the database sorted by key bytes
(model of `sled::Db::set` on an ordered store). -/
def dbSet : Db → String → Node → Db
  | [], k, v => [(k, v)]
  | (k0, v0) :: rest, k, v =>
    if k = k0 then (k, v) :: rest
    else if strLt k k0 then (k, v) :: (k0, v0) :: rest
    else (k0, v0) :: dbSet rest k v

/-- Iterate all entries with key at least `"0"` in key order (model of
`db.scan(b"0")` on the sorted store). -/
def dbScan (db : Db) : Db :=
  db.filter fun kv => strLt kv.1 "0" = false

/-- The node loop of `Graph::write_to_disk`: for each node, if the current
key is absent the node is written under it and the `continue` skips the
index increment; if the key is present the node is skipped and the index
advances.  (This is the loop as written in the source; the skipped
increment makes consecutive new nodes land under the same probe sequence.) -/
def writeNodes (db : Db) (i : Nat) : List Node → Db
  | [] => db
  | node :: rest =>
    if mcontains db (toString i) = false then
      writeNodes (dbSet db (toString i) node) i rest
    else
      writeNodes db (i + 1) rest

/-- Method `Graph::write_to_disk`: requires an open database (`none` models
the `sled::Error::Unsupported` failure) and runs the node loop from index
0, returning the flushed database content. -/
def Graph.write_to_disk (g : Graph) : Option Db :=
  match g.db with
  | some db => some (writeNodes db 0 g.nodes)
  | none => none

/-- The parent loop of `Graph::read_some_from_disk`: when the parent has no
children entry a singleton is first inserted, and then - with no `else` in
the source - the child hash is unconditionally pushed again, so a fresh
parent receives the child twice. -/
def readChildren (nc : List (Hash × List Hash)) (h : Hash) : List Hash → List (Hash × List Hash)
  | [] => nc
  | parent :: rest =>
    let nc1 := if mcontains nc parent = false then minsert nc parent [h] else nc
    readChildren (madjust nc1 parent (fun l => l ++ [h])) h rest

/-- One iteration of the scan in `Graph::read_some_from_disk`: deserialize
the node, null its state entry unless reading fully, route its hash to the
next index, record children, and append it. -/
def readStep (read_all : Bool)
    (acc : List Node × List (Hash × Nat) × List (Hash × List Hash))
    (kv : String × Node) :
    List Node × List (Hash × Nat) × List (Hash × List Hash) :=
  let current := if read_all then kv.2 else { kv.2 with state_entry := none }
  let routes := minsert acc.2.1 current.hash acc.1.length
  let children := readChildren acc.2.2 current.hash
    current.transaction.transaction_data.parents
  (acc.1 ++ [current], routes, children)

/-- Method `Graph::read_some_from_disk` over a given on-disk content. -/
def Graph.read_some_from_disk (db : Db) (read_all : Bool) : Graph :=
  let acc := (dbScan db).foldl (readStep read_all) ([], [], [])
  { nodes := acc.1
    hash_routes := acc.2.1
    node_children := acc.2.2
    db := some db }

/-- Method `Graph::read_from_disk` (full load). -/
def Graph.read_from_disk (db : Db) : Graph :=
  Graph.read_some_from_disk db true

/-- Method `Graph::read_partial_from_disk` (header-only load). -/
def Graph.read_partial_from_disk (db : Db) : Graph :=
  Graph.read_some_from_disk db false

/-- Concrete two-node graph with an open, empty database. -/
def gTwoC : Graph :=
  { ((Graph.new txRootC).push txTwoParentsC none).1 with db := some [] }

/-- Concrete one-entry database whose stored genesis node carries a
materialized state entry. -/
def dbOneC : Db :=
  dbSet [] "0" (Node.new txRootC (some (txRootC.execute none)))

/-- A DHT record key, abstracting the three byte-string key families
(`ledger::transactions::root`, `::tx::hash`, `::next::hash`) that
`inject_event` distinguishes. -/
inductive RecordKey where
  | root
  | txKey (h : Hash)
  | nextKey (h : Hash)
deriving DecidableEq, Repr

/-- A DHT record value: either the `bincode` encoding of a transaction or
raw hash bytes; the encoding is kept abstract so deserialization is exact. -/
inductive RecordValue where
  | txBytes (tx : Transaction)
  | rawBytes (bs : List Nat)
deriving DecidableEq, Repr

/-- Model of `bincode::deserialize::<Transaction>(&record.value)`. -/
def deserializeTx : RecordValue → Option Transaction
  | .txBytes tx => some tx
  | .rawBytes _ => none

/-- Digest-level model of `bincode::serialize(&tx)` over a whole
transaction; no claim inspects its contents. -/
def txSerialize (tx : Transaction) : List Nat :=
  3 :: (txHashOf tx.transaction_data
    ++ [if tx.contract_creation then 1 else 0, if tx.genesis then 1 else 0])

/-- The byte content of a record value. -/
def RecordValue.bytes : RecordValue → List Nat
  | .rawBytes bs => bs
  | .txBytes tx => txSerialize tx

/-- Model of `Hash::new(record.value)`: wrap the value bytes as a hash. -/
def RecordValue.asHash (v : RecordValue) : Hash :=
  v.bytes

/-- A proposal operation.
Modelled from the spec: `core/sys/proposal.rs` is not among the provided
sources; §3 defines Append/Amend/Remove with byte payloads. -/
inductive Operation where
  | Append (value_to_append : RecordValue)
  | Amend (value : RecordValue)
  | Remove
deriving DecidableEq, Repr

/-- A proposal body: logical path plus operation.
Modelled from the spec. -/
structure ProposalData where
  path : String
  operation : Operation
deriving DecidableEq, Repr

/-- Constructor `ProposalData::new`.  Modelled from the spec. -/
def ProposalData.new (path : String) (operation : Operation) : ProposalData :=
  { path := path, operation := operation }

/-- Proposal id: digest of the canonical serialization of `(name, data)`.
Modelled from the spec, with the digest as a tagged fingerprint. -/
def proposalIdOf (name : String) (data : ProposalData) : Hash :=
  2 :: (encStr name ++ encStr data.path
    ++ match data.operation with
      | .Append v => 0 :: v.bytes
      | .Amend v => 1 :: v.bytes
      | .Remove => [2])

/-- An identified proposal (votes and creation time carry no weight in any
claim and are omitted).  Modelled from the spec. -/
structure Proposal where
  proposal_id : Hash
  name : String
  data : ProposalData
deriving DecidableEq, Repr

/-- Constructor `Proposal::new`.  Modelled from the spec: the id is the
content digest of name and data. -/
def Proposal.new (name : String) (data : ProposalData) : Proposal :=
  { proposal_id := proposalIdOf name data, name := name, data := data }

/-- The System state guarded by the runtime lock: the ledger and the
pending proposal set.  Modelled from the spec: the System type is not among
the provided sources. -/
structure Runtime where
  ledger : Graph
  pending_proposals : List (Hash × Proposal)
deriving DecidableEq, Repr

/-- Method `System::push_proposal`.
Modelled from the spec: inserting an already-present proposal id is a
no-op. -/
def Runtime.push_proposal (rt : Runtime) (p : Proposal) : Runtime :=
  if mcontains rt.pending_proposals p.proposal_id then rt
  else { rt with
    pending_proposals := minsert rt.pending_proposals p.proposal_id p }

/-- An observable effect of the sync handler: a follow-up DHT query or a
call into `System::execute_proposal` (whose internal effect is owned by
the System, not by the handler under verification). -/
inductive SyncAction where
  | getRecord (key : RecordKey)
  | executeProposal (id : Hash)
deriving DecidableEq, Repr

/-- The `GetRecord(Ok)` record dispatch of `inject_event`
(`src/p2p/kademlia.rs`) for one peer record: the root key queries the
transaction under the received hash; a transaction key deserializes the
value (returning early on failure), installs the transaction as genesis
when the ledger is empty or else pushes and executes a `"sync_child"`
Append proposal, and then queries the next-after key of the transaction's
own hash; a next key queries the transaction under the received hash. -/
def injectGetRecordSuccess (rt : Runtime) (key : RecordKey) (value : RecordValue) :
    Runtime × List SyncAction :=
  match key with
  | .root => (rt, [.getRecord (.txKey value.asHash)])
  | .txKey _ =>
    match deserializeTx value with
    | none => (rt, [])
    | some tx =>
      let h := tx.hash
      if rt.ledger.nodes.isEmpty then
        ({ rt with ledger := (rt.ledger.push tx none).1 },
          [.getRecord (.nextKey h)])
      else
        let proposal := Proposal.new "sync_child"
          (ProposalData.new "ledger::transactions" (.Append value))
        let id := proposal.proposal_id
        (rt.push_proposal proposal,
          [.executeProposal id, .getRecord (.nextKey h)])
  | .nextKey _ => (rt, [.getRecord (.txKey value.asHash)])

/-- Concrete runtime with an empty ledger and no pending proposals. -/
def rtEmptyC : Runtime :=
  { ledger := { nodes := [], hash_routes := [], node_children := [], db := none }
    pending_proposals := [] }

/-- An ed25519 keypair; the public key is modelled as `Nat` and its
`bincode` serialization as the identity.
Modelled from the spec: key material lives outside the provided sources. -/
structure Keypair where
  public : Nat
  secret : Nat
deriving DecidableEq, Repr

/-- Address derivation from public key bytes.
Modelled from the spec: the address is the digest of the public key bytes,
rendered injectively. -/
def addressFromPublicBytes (publicBytes : Nat) : Address :=
  "pk:" ++ toString publicBytes

/-- Method `Address::from_key_pair`.
Modelled from the spec: derive the address from the keypair's public key. -/
def Address.from_key_pair (kp : Keypair) : Address :=
  addressFromPublicBytes kp.public

/-- The signing error type (`transaction::SignatureError`). -/
inductive SignatureError where
  | InvalidAddressPublicKeyCombination (address_hex : String)
  | SerializationFailure
deriving DecidableEq, Repr

/-- Symbolic ed25519 signing of a message hash (`keypair.sign`). -/
def edSign (kp : Keypair) (msg : Hash) : SigBytes :=
  { signer_public := kp.public, message := msg }

/-- Function `sign_transaction` (`src/core/types/transaction.rs`): the
derived sender address is compared with the transaction's sender; on
mismatch an error is returned and the transaction is left untouched, and
otherwise a signature over the transaction hash under the keypair is
attached.  The mutable-reference update is modelled by returning the
resulting transaction alongside the optional error. -/
def sign_transaction (keypair : Keypair) (transaction : Transaction) :
    Transaction × Option SignatureError :=
  let derived_sender_address := Address.from_key_pair keypair
  if transaction.transaction_data.sender ≠ derived_sender_address then
    (transaction,
      some (.InvalidAddressPublicKeyCombination derived_sender_address))
  else
    ({ transaction with
        signature := some (Signature.mk keypair.public
          (edSign keypair transaction.hash)) },
      none)

/-- Concrete keypair used in the signing witnesses. -/
def kpW : Keypair :=
  { public := 42, secret := 7 }

/-- Concrete transaction whose sender is the address derived from `kpW`. -/
def txSignW : Transaction :=
  Transaction.new 0 (Address.from_key_pair kpW) "bob" 1 [] [[0]] 0

/-- Method `Signature::verify_tx`.
Modelled from the spec: verification succeeds iff the stored bytes are a
valid ed25519 signature of the transaction hash under the stored public
key (symbolic signature model). -/
def Signature.verify_tx (s : Signature) (tx : Transaction) : Bool :=
  decide (s.signature_bytes.signer_public = s.public_key_bytes
    ∧ s.signature_bytes.message = tx.hash)

/-- Method `Transaction::verify_signature`
(`src/core/types/transaction.rs`): a `None` signature is never valid;
otherwise the signature is verified against the transaction. -/
def Transaction.verify_signature (tx : Transaction) : Bool :=
  match tx.signature with
  | none => false
  | some signature => signature.verify_tx tx

theorem mfind_minsert_self {α β : Type} [DecidableEq α] (m : List (α × β)) (a : α) (b : β) :
    mfind (minsert m a b) a = some b := by
  induction m with
  | nil => simp [minsert, mfind]
  | cons kv rest ih =>
    obtain ⟨k, v⟩ := kv
    by_cases h : k = a
    · simp [minsert, mfind, h]
    · simpa [minsert, mfind, h] using ih

theorem mfind_minsert_ne {α β : Type} [DecidableEq α] (m : List (α × β)) (a x : α) (b : β)
    (hx : x ≠ a) : mfind (minsert m a b) x = mfind m x := by
  have hax : a ≠ x := Ne.symm hx
  induction m with
  | nil => simp [minsert, mfind, hax]
  | cons kv rest ih =>
    obtain ⟨k, v⟩ := kv
    by_cases h : k = a
    · subst h
      simp [minsert, mfind, hax]
    · by_cases h2 : k = x
      · simp [minsert, mfind, h, h2, hx]
      · simpa [minsert, mfind, h, h2] using ih

theorem mfind_madjust_self {α β : Type} [DecidableEq α] (m : List (α × β)) (a : α)
    (f : β → β) : mfind (madjust m a f) a = (mfind m a).map f := by
  induction m with
  | nil => simp [madjust, mfind]
  | cons kv rest ih =>
    obtain ⟨k, v⟩ := kv
    by_cases h : k = a
    · simp [madjust, mfind, h]
    · simpa [madjust, mfind, h] using ih

theorem mfind_madjust_ne {α β : Type} [DecidableEq α] (m : List (α × β)) (a x : α)
    (f : β → β) (hx : x ≠ a) : mfind (madjust m a f) x = mfind m x := by
  induction m with
  | nil => simp [madjust, mfind]
  | cons kv rest ih =>
    obtain ⟨k, v⟩ := kv
    by_cases h : k = a
    · subst h
      simpa [madjust, mfind, Ne.symm hx] using ih
    · by_cases h2 : k = x
      · simp [madjust, mfind, h, h2, hx]
      · simpa [madjust, mfind, h, h2] using ih

theorem mcontains_madjust {α β : Type} [DecidableEq α] (m : List (α × β)) (a x : α)
    (f : β → β) : mcontains (madjust m a f) x = mcontains m x := by
  by_cases h : x = a
  · subst h
    simp [mcontains, mfind_madjust_self]
  · simp [mcontains, mfind_madjust_ne m a x f h]

/-- Claim C1: `Transaction.execute` conforms to the two-case reference
definition.  Bootstrap case: against `none` (and, by the third conjunct,
against any entry with empty balances) the result maps exactly the
recipient to the value and exactly the sender to the nonce.  Inductive
case: for an entry with non-empty balances, provided the sender balance
(defaulting to 0) is at least the value, the result is the previous
balances with the value subtracted from the sender balance and added to
the recipient balance (the addition reading the already-updated map), the
sender nonce set to the transaction nonce, and every other binding
unchanged. -/
theorem execute_conforms_reference (tx : Transaction) :
    ((∀ a, mfind (tx.execute none).data.balances a =
        if a = tx.transaction_data.recipient then some tx.transaction_data.value else none)
      ∧ (∀ a, mfind (tx.execute none).data.nonces a =
        if a = tx.transaction_data.sender then some tx.transaction_data.nonce else none))
    ∧ (∀ e : Entry, e.data.balances.isEmpty = true →
        tx.execute (some e) = tx.execute none)
    ∧ (∀ e : Entry, e.data.balances.isEmpty = false →
        tx.transaction_data.value ≤ mgetD e.data.balances tx.transaction_data.sender 0 →
        (mfind (tx.execute (some e)).data.balances tx.transaction_data.recipient =
          some ((if tx.transaction_data.recipient = tx.transaction_data.sender
              then mgetD e.data.balances tx.transaction_data.sender 0
                - tx.transaction_data.value
              else mgetD e.data.balances tx.transaction_data.recipient 0)
            + tx.transaction_data.value))
        ∧ (tx.transaction_data.recipient ≠ tx.transaction_data.sender →
            mfind (tx.execute (some e)).data.balances tx.transaction_data.sender =
              some (mgetD e.data.balances tx.transaction_data.sender 0
                - tx.transaction_data.value))
        ∧ (∀ a, a ≠ tx.transaction_data.sender → a ≠ tx.transaction_data.recipient →
            mfind (tx.execute (some e)).data.balances a = mfind e.data.balances a)
        ∧ (mfind (tx.execute (some e)).data.nonces tx.transaction_data.sender =
            some tx.transaction_data.nonce)
        ∧ (∀ a, a ≠ tx.transaction_data.sender →
            mfind (tx.execute (some e)).data.nonces a = mfind e.data.nonces a)) := by
  refine ⟨⟨?_, ?_⟩, ?_, ?_⟩
  · intro a
    by_cases h : a = tx.transaction_data.recipient
    · subst h
      simp [Transaction.execute, Entry.new, minsert, mfind]
    · simp [Transaction.execute, Entry.new, minsert, mfind, h, Ne.symm h]
  · intro a
    by_cases h : a = tx.transaction_data.sender
    · subst h
      simp [Transaction.execute, Entry.new, minsert, mfind]
    · simp [Transaction.execute, Entry.new, minsert, mfind, h, Ne.symm h]
  · intro e he
    simp [Transaction.execute, he]
  · intro e he _hsuff
    refine ⟨?_, ?_, ?_, ?_, ?_⟩
    · by_cases hrs : tx.transaction_data.recipient = tx.transaction_data.sender
      · simp [Transaction.execute, he, Entry.new, mfind_minsert_self, mgetD, hrs]
      · simp [Transaction.execute, he, Entry.new, mfind_minsert_self, mgetD, hrs,
          mfind_minsert_ne _ _ _ _ hrs]
    · intro hrs
      simp [Transaction.execute, he, Entry.new]
      rw [mfind_minsert_ne _ _ _ _ (Ne.symm hrs), mfind_minsert_self]
    · intro a hs hr
      simp [Transaction.execute, he, Entry.new]
      rw [mfind_minsert_ne _ _ _ _ hr, mfind_minsert_ne _ _ _ _ hs]
    · simp [Transaction.execute, he, Entry.new, mfind_minsert_self]
    · intro a hs
      simp [Transaction.execute, he, Entry.new]
      rw [mfind_minsert_ne _ _ _ _ hs]

/-- Witness for C1: executing a value-3 transfer from alice (balance 5) to
bob against a concrete entry yields balance 3 for bob and 2 for alice. -/
theorem execute_conforms_reference_witness :
    mfind ((txW.execute (some entryW)).data.balances) "bob" = some 3
    ∧ mfind ((txW.execute (some entryW)).data.balances) "alice" = some 2 := by
  have h := (execute_conforms_reference txW).2.2 entryW (by decide) (by decide)
  exact ⟨h.1.trans (by decide), (h.2.1 (by decide)).trans (by decide)⟩

/-- Counterexample to claim C2 as stated: pushing a transaction whose two
parents both lack `node_children` entries records a child only under the
first parent; the loop breaks before reaching the second parent, whose
entry stays absent. -/
theorem push_children_second_parent_missing :
    txTwoParentsC.transaction_data.parents = [[7], [8]]
    ∧ mfind (((Graph.new txRootC).push txTwoParentsC none).1.node_children) [7]
        = some [txTwoParentsC.hash]
    ∧ mfind (((Graph.new txRootC).push txTwoParentsC none).1.node_children) [8] = none := by
  refine ⟨rfl, ?_, ?_⟩ <;> rfl

theorem pushChildren_all_present (h : Hash) :
    ∀ (ps : List Hash) (nc : List (Hash × List Hash)),
      (∀ q ∈ ps, mcontains nc q = true) →
      ((∀ q ∈ ps, ∃ l, mfind (pushChildren nc h ps) q = some l ∧ h ∈ l)
        ∧ (∀ x, x ∉ ps → mfind (pushChildren nc h ps) x = mfind nc x)) := by
  intro ps
  induction ps with
  | nil => intro nc _; exact ⟨by simp, fun x _ => by simp [pushChildren]⟩
  | cons p rest ih =>
    intro nc hall
    have hp : mcontains nc p = true := hall p (by simp)
    have hrest : ∀ q ∈ rest, mcontains (madjust nc p (fun l => l ++ [h])) q = true := by
      intro q hq
      rw [mcontains_madjust]
      exact hall q (by simp [hq])
    have hstep : pushChildren nc h (p :: rest)
        = pushChildren (madjust nc p (fun l => l ++ [h])) h rest := by
      simp [pushChildren, hp]
    obtain ⟨hmem, hout⟩ := ih (madjust nc p (fun l => l ++ [h])) hrest
    constructor
    · intro q hq
      rcases List.mem_cons.mp hq with hq | hq
      · subst hq
        by_cases hqr : q ∈ rest
        · obtain ⟨l, hl, hhl⟩ := hmem q hqr
          exact ⟨l, by rw [hstep]; exact hl, hhl⟩
        · have hfind := hout q hqr
          obtain ⟨l0, hl0⟩ := Option.isSome_iff_exists.mp hp
          refine ⟨l0 ++ [h], ?_, by simp⟩
          rw [hstep, hfind, mfind_madjust_self, hl0]
          rfl
      · obtain ⟨l, hl, hhl⟩ := hmem q hq
        exact ⟨l, by rw [hstep]; exact hl, hhl⟩
    · intro x hx
      have hxp : x ≠ p := fun hcontra => hx (by simp [hcontra])
      have hxr : x ∉ rest := fun hcontra => hx (by simp [hcontra])
      rw [hstep, hout x hxr, mfind_madjust_ne _ _ _ _ hxp]

theorem pushChildren_stops (h : Hash) :
    ∀ (pre : List Hash) (nc : List (Hash × List Hash)) (p : Hash) (rest : List Hash),
      (∀ q ∈ pre, mcontains nc q = true) →
      mcontains nc p = false →
      ((∀ q ∈ pre, ∃ l, mfind (pushChildren nc h (pre ++ p :: rest)) q = some l ∧ h ∈ l)
        ∧ mfind (pushChildren nc h (pre ++ p :: rest)) p = some [h]
        ∧ (∀ x, x ∉ pre → x ≠ p →
            mfind (pushChildren nc h (pre ++ p :: rest)) x = mfind nc x)) := by
  intro pre
  induction pre with
  | nil =>
    intro nc p rest _ hp
    refine ⟨by simp, ?_, ?_⟩
    · simp [pushChildren, hp, mfind_minsert_self]
    · intro x _ hxp
      simp [pushChildren, hp, mfind_minsert_ne _ _ _ _ hxp]
  | cons q0 pre ih =>
    intro nc p rest hall hp
    have hq0 : mcontains nc q0 = true := hall q0 (by simp)
    have hq0p : q0 ≠ p := fun hcontra => by
      rw [hcontra] at hq0
      rw [hq0] at hp
      exact Bool.true_eq_false.mp hp
    have hstep : pushChildren nc h ((q0 :: pre) ++ p :: rest)
        = pushChildren (madjust nc q0 (fun l => l ++ [h])) h (pre ++ p :: rest) := by
      simp [pushChildren, hq0]
    have hall2 : ∀ q ∈ pre, mcontains (madjust nc q0 (fun l => l ++ [h])) q = true := by
      intro q hq
      rw [mcontains_madjust]
      exact hall q (by simp [hq])
    have hp2 : mcontains (madjust nc q0 (fun l => l ++ [h])) p = false := by
      rw [mcontains_madjust]
      exact hp
    obtain ⟨hmem, hfp, hout⟩ := ih (madjust nc q0 (fun l => l ++ [h])) p rest hall2 hp2
    refine ⟨?_, by rw [hstep]; exact hfp, ?_⟩
    · intro q hq
      rcases List.mem_cons.mp hq with hq | hq
      · subst hq
        by_cases hqr : q ∈ pre
        · obtain ⟨l, hl, hhl⟩ := hmem q hqr
          exact ⟨l, by rw [hstep]; exact hl, hhl⟩
        · have hfind := hout q hqr hq0p
          obtain ⟨l0, hl0⟩ := Option.isSome_iff_exists.mp hq0
          refine ⟨l0 ++ [h], ?_, by simp⟩
          rw [hstep, hfind, mfind_madjust_self, hl0]
          rfl
      · obtain ⟨l, hl, hhl⟩ := hmem q hq
        exact ⟨l, by rw [hstep]; exact hl, hhl⟩
    · intro x hx hxp
      have hxq0 : x ≠ q0 := fun hcontra => hx (by simp [hcontra])
      have hxpre : x ∉ pre := fun hcontra => hx (by simp [hcontra])
      rw [hstep, hout x hxpre hxp, mfind_madjust_ne _ _ _ _ hxq0]

/-- Claim C2, amended: after `Graph.push`, `tx.hash` is recorded under a
parent only up to the first parent absent from `node_children`.  If every
parent already has an entry, each parent receives the child hash; otherwise
the parents before the first absent one receive it, the first absent parent
gets a fresh singleton entry, and the loop breaks, leaving later parents
(and all other keys) untouched. -/
theorem push_records_children_until_first_missing_parent :
    (∀ (g : Graph) (tx : Transaction) (se : Option Entry),
      (∀ p ∈ tx.transaction_data.parents, mcontains g.node_children p = true) →
      ∀ p ∈ tx.transaction_data.parents,
        ∃ l, mfind ((g.push tx se).1.node_children) p = some l ∧ tx.hash ∈ l)
    ∧ (∀ (g : Graph) (tx : Transaction) (se : Option Entry)
        (pre : List Hash) (p : Hash) (rest : List Hash),
        tx.transaction_data.parents = pre ++ p :: rest →
        (∀ q ∈ pre, mcontains g.node_children q = true) →
        mcontains g.node_children p = false →
        ((∀ q ∈ pre, ∃ l, mfind ((g.push tx se).1.node_children) q = some l ∧ tx.hash ∈ l)
          ∧ mfind ((g.push tx se).1.node_children) p = some [tx.hash]
          ∧ (∀ x, x ∉ pre → x ≠ p →
              mfind ((g.push tx se).1.node_children) x = mfind g.node_children x))) := by
  constructor
  · intro g tx se hall p hp
    have hres := (pushChildren_all_present tx.hash tx.transaction_data.parents
      g.node_children hall).1 p hp
    simpa [Graph.push] using hres
  · intro g tx se pre p rest hparents hall hp
    have hres := pushChildren_stops tx.hash pre g.node_children p rest hall hp
    refine ⟨?_, ?_, ?_⟩
    · intro q hq
      have := hres.1 q hq
      simpa [Graph.push, hparents] using this
    · have := hres.2.1
      simpa [Graph.push, hparents] using this
    · intro x hx hxp
      have := hres.2.2 x hx hxp
      simpa [Graph.push, hparents] using this

/-- Witness for the amended C2: in a fresh graph (empty `node_children`),
pushing the two-parent transaction creates a singleton entry for the first
parent and leaves the second parent without an entry. -/
theorem push_records_children_witness :
    mfind (((Graph.new txRootC).push txTwoParentsC none).1.node_children) [7]
      = some [txTwoParentsC.hash]
    ∧ mfind (((Graph.new txRootC).push txTwoParentsC none).1.node_children) [8]
      = mfind (Graph.new txRootC).node_children [8] := by
  have h := push_records_children_until_first_missing_parent.2 (Graph.new txRootC)
    txTwoParentsC none [] [7] [[8]] rfl (by simp) (by rfl)
  exact ⟨h.2.1, h.2.2 [8] (by simp) (by decide)⟩

/-- Counterexample to claim C3 as stated: `Graph.update` replaces the node
at index 0 with a different-hash transaction without rewriting
`hash_routes`, so the updated node's hash has no route at all (in
particular it does not route to 0). -/
theorem update_breaks_routes :
    ((Graph.new txRootC).update 0 txUpdC none).nodes.get? 0 = some (Node.new txUpdC none)
    ∧ mfind (((Graph.new txRootC).update 0 txUpdC none).hash_routes)
        (Node.new txUpdC none).hash = none := by
  exact ⟨rfl, rfl⟩

/-- Claim C3, amended: the route bijection holds for graphs built by
`Graph.new` and preserved by `Graph.push` whenever the pushed transaction's
hash is not yet routed; it is not preserved by duplicate-hash pushes or by
`Graph.update` with a different-hash transaction (the route table is not
rewritten there). -/
theorem routes_consistent_new_push :
    (∀ tx, RoutesConsistent (Graph.new tx))
    ∧ (∀ (g : Graph) (tx : Transaction) (se : Option Entry),
        RoutesConsistent g →
        mfind g.hash_routes tx.hash = none →
        RoutesConsistent ((g.push tx se).1)) := by
  constructor
  · intro tx i n h
    match i with
    | 0 =>
      simp only [Graph.new, List.get?] at h
      obtain rfl := Option.some_injective _ h
      simp [Graph.new, mfind]
    | i + 1 =>
      simp [Graph.new] at h
  · intro g tx se hcons hfresh i n h
    have hlen : ((g.push tx se).1).nodes = g.nodes ++ [Node.new tx se] := rfl
    rw [hlen] at h
    have hroutes : ((g.push tx se).1).hash_routes
        = minsert g.hash_routes tx.hash g.nodes.length := by
      simp [Graph.push]
    rw [hroutes]
    rcases Nat.lt_or_ge i g.nodes.length with hi | hi
    · rw [List.get?_append hi] at h
      have hfound := hcons i n h
      have hne : n.hash ≠ tx.hash := by
        intro hcontra
        rw [hcontra, hfresh] at hfound
        exact Option.noConfusion hfound
      rw [mfind_minsert_ne _ _ _ _ hne]
      exact hfound
    · rw [List.get?_append_right hi] at h
      have hi0 : i - g.nodes.length = 0 := by
        by_contra hne
        rcases Nat.exists_eq_succ_of_ne_zero hne with ⟨j, hj⟩
        rw [hj] at h
        simp at h
      rw [hi0] at h
      obtain rfl := Option.some_injective _ h
      have hieq : i = g.nodes.length := Nat.le_antisymm
        (Nat.le_of_sub_eq_zero hi0) hi
      rw [hieq]
      simpa [Node.new] using mfind_minsert_self g.hash_routes tx.hash g.nodes.length

/-- Witness for the amended C3: the consistency established by `Graph.new`
on a concrete root survives a concrete fresh-hash push. -/
theorem routes_consistent_witness :
    RoutesConsistent (((Graph.new txRootC).push txTwoParentsC none).1) :=
  routes_consistent_new_push.2 (Graph.new txRootC) txTwoParentsC none
    (routes_consistent_new_push.1 txRootC) (by decide)

/-- Counterexample to claim C4 as stated: `Graph.new` stores the root
transaction unchanged and `Transaction.new` initializes `genesis = false`,
so the graph built from a freshly constructed root has no genesis-flagged
node at all. -/
theorem graph_new_no_genesis_flag :
    ((Graph.new txRootC).nodes.map fun n => n.transaction.genesis) = [false] := rfl

/-- Claim C4, amended: `Graph.new` installs the root transaction at index 0
unchanged, without setting its `genesis` flag (which `Transaction.new`
initializes to `false`).  The spec's uniqueness invariant therefore holds
only conditionally: when the caller supplies a root already flagged
`genesis = true`, `Graph.new` establishes it and `Graph.push` preserves it
for pushed transactions with `genesis = false`. -/
theorem genesis_uniqueness_conditional :
    (∀ tx, ((Graph.new tx).nodes.map fun n => n.transaction) = [tx])
    ∧ (∀ tx, tx.genesis = true → GenesisAtZeroOnly (Graph.new tx))
    ∧ (∀ (g : Graph) (tx : Transaction) (se : Option Entry),
        GenesisAtZeroOnly g → g.nodes ≠ [] → tx.genesis = false →
        GenesisAtZeroOnly ((g.push tx se).1)) := by
  refine ⟨fun tx => rfl, ?_, ?_⟩
  · intro tx htx i n h
    match i with
    | 0 =>
      simp only [Graph.new, List.get?] at h
      obtain rfl := Option.some_injective _ h
      simpa using htx
    | i + 1 =>
      simp [Graph.new] at h
  · intro g tx se hg hne htx i n h
    have hlen : ((g.push tx se).1).nodes = g.nodes ++ [Node.new tx se] := rfl
    rw [hlen] at h
    rcases Nat.lt_or_ge i g.nodes.length with hi | hi
    · rw [List.get?_append hi] at h
      exact hg i n h
    · rw [List.get?_append_right hi] at h
      have hi0 : i - g.nodes.length = 0 := by
        by_contra hcontra
        rcases Nat.exists_eq_succ_of_ne_zero hcontra with ⟨j, hj⟩
        rw [hj] at h
        simp at h
      rw [hi0] at h
      obtain rfl := Option.some_injective _ h
      have hipos : i ≠ 0 := by
        intro hcontra
        rw [hcontra] at hi
        exact hne (List.eq_nil_of_length_eq_zero (Nat.le_zero.mp hi))
      simp [Node.new, htx, hipos]

/-- Witness for the amended C4: with a genesis-flagged concrete root, the
exactly-at-index-0 property survives a concrete non-genesis push. -/
theorem genesis_uniqueness_witness :
    GenesisAtZeroOnly (((Graph.new txGenC).push txTwoParentsC none).1) :=
  genesis_uniqueness_conditional.2.2 (Graph.new txGenC) txTwoParentsC none
    (genesis_uniqueness_conditional.2.1 txGenC rfl) (by simp [Graph.new]) rfl

/-- Counterexample to claim C5 as stated: pushing a transaction whose hash
is already routed (the root itself) changes the graph: the node list grows
from one to two entries and the hash route is repointed to index 1. -/
theorem duplicate_push_mutates_graph :
    mfind (Graph.new txRootC).hash_routes txRootC.hash = some 0
    ∧ ((Graph.new txRootC).push txRootC none).1.nodes.length = 2
    ∧ mfind (((Graph.new txRootC).push txRootC none).1.hash_routes) txRootC.hash
        = some 1 := by
  refine ⟨?_, ?_, ?_⟩ <;> rfl

/-- Claim C5, amended: `Graph.push` performs no duplicate check.  For every
graph and transaction - routed hash or not - push appends a fresh node,
returns the new index, and repoints `hash_routes[tx.hash]` to it;
de-duplication is the caller's responsibility. -/
theorem push_has_no_duplicate_check :
    ∀ (g : Graph) (tx : Transaction) (se : Option Entry),
      ((g.push tx se).1.nodes.length = g.nodes.length + 1)
      ∧ ((g.push tx se).2 = g.nodes.length)
      ∧ (mfind ((g.push tx se).1.hash_routes) tx.hash = some g.nodes.length)
      ∧ ((g.push tx se).1.nodes.get? g.nodes.length = some (Node.new tx se)) := by
  intro g tx se
  refine ⟨by simp [Graph.push], by simp [Graph.push], ?_, ?_⟩
  · simpa [Graph.push] using mfind_minsert_self g.hash_routes tx.hash g.nodes.length
  · have : ((g.push tx se).1).nodes = g.nodes ++ [Node.new tx se] := rfl
    rw [this, List.get?_append_right (Nat.le_refl _)]
    simp

/-- Claim C6 exercised at a failing input: writing a two-node graph to an
empty database and fully re-reading it returns a single node, because the
`continue` in the write loop skips the index increment after a successful
write - node 0 lands under key "0", and the loop then sees key "0" as
present for node 1 and walks past it without ever writing it. -/
theorem write_read_round_trip_loses_nodes :
    gTwoC.nodes.length = 2
    ∧ (gTwoC.write_to_disk.map fun db => (Graph.read_from_disk db).nodes.length)
        = some 1 := by
  exact ⟨rfl, rfl⟩

/-- Counterexample to claim C7 as stated: the partial load nulls the state
entry of every node it inserts, the genesis node at index 0 included, even
though the stored genesis node carried one. -/
theorem partial_read_discards_genesis_state :
    ((mfind dbOneC "0").map fun n => n.state_entry.isSome) = some true
    ∧ ((Graph.read_partial_from_disk dbOneC).nodes.map fun n => n.state_entry)
        = [none] := by
  exact ⟨rfl, rfl⟩

theorem readFold_state_none :
    ∀ (l : Db) (acc : List Node × List (Hash × Nat) × List (Hash × List Hash)),
      (∀ n ∈ acc.1, n.state_entry = none) →
      ∀ n ∈ (l.foldl (readStep false) acc).1, n.state_entry = none := by
  intro l
  induction l with
  | nil => intro acc hacc n hn; exact hacc n hn
  | cons kv rest ih =>
    intro acc hacc
    apply ih
    intro n hn
    rcases List.mem_append.mp hn with h | h
    · exact hacc n h
    · rw [List.mem_singleton.mp h]
      simp

/-- Claim C7, amended: after a partial (header-only) load, every node's
state entry is `none` - the genesis node at index 0 included; the source
nulls the entry of each scanned node without a genesis exception. -/
theorem partial_read_all_state_entries_none :
    ∀ (db : Db) (i : Nat) (n : Node),
      (Graph.read_partial_from_disk db).nodes.get? i = some n →
      n.state_entry = none := by
  intro db i n h
  have hmem : n ∈ (Graph.read_partial_from_disk db).nodes := List.get?_mem h
  exact readFold_state_none (dbScan db) ([], [], []) (by simp) n hmem

/-- Witness for the amended C7: the concrete genesis node read back from
the one-entry database has no state entry. -/
theorem partial_read_witness :
    (Node.new txRootC none).state_entry = none :=
  partial_read_all_state_entries_none dbOneC 0 (Node.new txRootC none) rfl

/-- Claim C8: on a GetRecord success under a transaction-by-hash key whose
value deserializes to `tx`, the handler installs `tx` as genesis via
`Graph.push(tx, None)` when the local ledger has no nodes, and otherwise
pushes a `"sync_child"` Append proposal against `ledger::transactions`
carrying the record bytes and calls `execute_proposal` on its id; in both
cases it then issues a GetRecord for the next-after key of `tx.hash`. -/
theorem sync_tx_record_handling :
    ∀ (rt : Runtime) (kh : Hash) (value : RecordValue) (tx : Transaction),
      deserializeTx value = some tx →
      ((rt.ledger.nodes = [] →
        injectGetRecordSuccess rt (.txKey kh) value
          = ({ rt with ledger := (rt.ledger.push tx none).1 },
              [.getRecord (.nextKey tx.hash)]))
      ∧ (rt.ledger.nodes ≠ [] →
        injectGetRecordSuccess rt (.txKey kh) value
          = (rt.push_proposal (Proposal.new "sync_child"
                (ProposalData.new "ledger::transactions" (.Append value))),
              [.executeProposal (Proposal.new "sync_child"
                  (ProposalData.new "ledger::transactions"
                    (.Append value))).proposal_id,
                .getRecord (.nextKey tx.hash)]))) := by
  intro rt kh value tx hval
  constructor
  · intro hemp
    simp [injectGetRecordSuccess, hval, hemp]
  · intro hne
    simp [injectGetRecordSuccess, hval, List.isEmpty_eq_true, hne]

/-- Witness for C8: an empty concrete runtime receiving a transaction
record installs it as genesis and queries the next-after key. -/
theorem sync_tx_record_witness :
    injectGetRecordSuccess rtEmptyC (.txKey [9]) (.txBytes txRootC)
      = ({ rtEmptyC with ledger := (rtEmptyC.ledger.push txRootC none).1 },
          [.getRecord (.nextKey txRootC.hash)]) :=
  (sync_tx_record_handling rtEmptyC [9] (.txBytes txRootC) txRootC rfl).1 rfl

/-- Claim C9: `sign_transaction` errs exactly when the address derived from
the keypair differs from the transaction's sender; on error the transaction
is unchanged (its signature keeps its prior value), and on success the
attached signature carries the keypair's public key, whose derived address
is the sender. -/
theorem sign_transaction_sender_check :
    ∀ (kp : Keypair) (tx : Transaction),
      ((sign_transaction kp tx).2.isSome
        ↔ Address.from_key_pair kp ≠ tx.transaction_data.sender)
      ∧ (Address.from_key_pair kp ≠ tx.transaction_data.sender →
          (sign_transaction kp tx).1 = tx)
      ∧ (Address.from_key_pair kp = tx.transaction_data.sender →
          ∃ sig : Signature,
            (sign_transaction kp tx).1 = { tx with signature := some sig }
            ∧ sig.public_key_bytes = kp.public
            ∧ addressFromPublicBytes sig.public_key_bytes
              = tx.transaction_data.sender) := by
  intro kp tx
  by_cases h : tx.transaction_data.sender = Address.from_key_pair kp
  · refine ⟨?_, ?_, ?_⟩
    · simp [sign_transaction, h]
    · intro hne
      exact absurd h.symm hne
    · intro _
      refine ⟨Signature.mk kp.public (edSign kp tx.hash), ?_, rfl, h.symm⟩
      simp [sign_transaction, h]
  · refine ⟨?_, ?_, ?_⟩
    · simpa [sign_transaction, h] using fun hcontra => h hcontra.symm
    · intro _
      simp [sign_transaction, h]
    · intro heq
      exact absurd heq.symm h

/-- Witness for C9: signing `txRootC` (sender `"a"`) with `kpW` leaves the
transaction unchanged, while signing `txSignW` (matching sender) attaches a
signature. -/
theorem sign_transaction_sender_check_witness :
    (sign_transaction kpW txRootC).1 = txRootC
    ∧ (sign_transaction kpW txSignW).1.signature.isSome = true := by
  constructor
  · exact (sign_transaction_sender_check kpW txRootC).2.1 (by decide)
  · obtain ⟨sig, hsig, -, -⟩ :=
      (sign_transaction_sender_check kpW txSignW).2.2 rfl
    rw [hsig]
    rfl

/-- Claim C10: a transaction without a signature is never reported as
validly signed. -/
theorem unsigned_never_verifies :
    ∀ tx : Transaction, tx.signature = none → tx.verify_signature = false := by
  intro tx h
  simp [Transaction.verify_signature, h]

/-- Witness for C10: the concrete unsigned root transaction fails
signature verification. -/
theorem unsigned_never_verifies_witness :
    txRootC.verify_signature = false :=
  unsigned_never_verifies txRootC rfl

end SummerCash
